import Mathlib

/-!
Shallow embedding of the path-enumeration / traversal engine of
`kordesii/utils/function_tracingutils/flowchart.py` and of the pack/unpack and
float-reinterpretation helpers of `kordesii/utils/function_tracing/utils.py`.

Conventions of the embedding:
* Disassembler blocks (`idaapi.BasicBlock`) become `BB`; successor and
  predecessor edges are recorded as lists of start addresses, in the order the
  disassembler reports them.
* The instruction stream (`idautils.Heads`, `idc.NextHead`) is a sorted list of
  head addresses passed in as a parameter `H`.
* Python generators that the claims only ever consume to completion are
  modelled by the list of items a full consumption yields; a generator
  suspended in a cache is modelled by the list of items it has left to yield.
* Machine integers are `Nat`/`Int` with explicit `% 2^w` where the code masks.
* Python exceptions become `Except` errors.
-/

set_option linter.unusedVariables false

/-- A basic block: half-open address range plus successor/predecessor start
addresses (the static edges reported by the disassembler, in its order). -/
structure BB where
  startEA : Nat
  endEA : Nat
  succs : List Nat
  preds : List Nat
deriving DecidableEq, Repr

/-- The function graph (`FlowChart`): its blocks, where `blocks[0]` is the
function entry block. -/
structure FlowChart where
  blocks : List BB
deriving DecidableEq, Repr

/-- `ea in block` test: `self.startEA <= ea < self.endEA`. -/
def bbContains (b : BB) (ea : Nat) : Bool :=
  decide (b.startEA ≤ ea) && decide (ea < b.endEA)

/-- `FlowChart.find_block`: first block whose range contains `ea`, else the
Python `None` (here `none`). -/
def find_block (g : FlowChart) (ea : Nat) : Option BB :=
  g.blocks.find? (fun b => bbContains b ea)

/-- Resolve a start address to its block (used to model the block objects that
`succs()` / `preds()` return). -/
def findBlockByStart (g : FlowChart) (s : Nat) : Option BB :=
  g.blocks.find? (fun b => b.startEA == s)

/-- The blocks returned by `cur_block.preds()`, in edge order. -/
def predsOf (g : FlowChart) (b : BB) : List BB :=
  b.preds.filterMap (findBlockByStart g)

/-- The blocks returned by `cur_block.succs()`, in edge order. -/
def succsOf (g : FlowChart) (b : BB) : List BB :=
  b.succs.filterMap (findBlockByStart g)

/-- Wellformedness of a disassembler graph: no two blocks share a `startEA`
(the data-model invariant the spec states) and no duplicate predecessor
edges. -/
def WF (g : FlowChart) : Prop :=
  (g.blocks.map (·.startEA)).Nodup ∧ ∀ b ∈ g.blocks, b.preds.Nodup

instance (g : FlowChart) : Decidable (WF g) := by
  unfold WF; infer_instance

/-- Stable insertion into a descending-by-key list (helper for the model of
Python's stable `sorted(..., key=..., reverse=True)`). -/
def insertDescBy (key : BB → Nat) (x : BB) : List BB → List BB
  | [] => [x]
  | y :: ys => if key y ≤ key x then x :: y :: ys else y :: insertDescBy key x ys

/-- Stable sort, descending by key: model of
`sorted(..., key=attrgetter("startEA"), reverse=True)`. -/
def sortDescBy (key : BB → Nat) : List BB → List BB
  | [] => []
  | x :: xs => insertDescBy key x (sortDescBy key xs)

/-- Stable insertion into an ascending-by-key list. -/
def insertAscBy (key : BB → Nat) (x : BB) : List BB → List BB
  | [] => [x]
  | y :: ys => if key x ≤ key y then x :: y :: ys else y :: insertAscBy key x ys

/-- Stable sort, ascending by key: model of
`sorted(..., key=attrgetter("startEA"))`. -/
def sortAscBy (key : BB → Nat) : List BB → List BB
  | [] => []
  | x :: xs => insertAscBy key x (sortAscBy key xs)

/-- `idautils.Heads(a, b)`: the instruction head addresses in `[a, b)`. -/
def pyHeads (H : List Nat) (a b : Nat) : List Nat :=
  H.filter (fun h => decide (a ≤ h) && decide (h < b))

/-- `idc.NextHead(ea)`: the first head strictly after `ea` (assuming `H` is
sorted ascending), or `none` (`BADADDR`). -/
def nextHead (H : List Nat) (ea : Nat) : Option Nat :=
  H.find? (fun h => decide (ea < h))

/-- Python exception kinds the modelled code can raise. -/
inductive PyErr where
  /-- `AttributeError` from dereferencing the `None` returned by a failed
  `find_block`. -/
  | attributeError
deriving DecidableEq, Repr

/-- One step body shared by `FlowChart._dfs` and `FlowChart._bfs` (forward
traversal): the queue discipline is the only difference (`dfs = true` pushes
sorted successors on the front, `dfs = false` appends them).  `fuel` bounds the
number of loop iterations; each iteration pops one queue element, and the
visited set makes the real loop terminate, so any `fuel` larger than the
number of iterations actually taken gives the full output. -/
def fwdGo (g : FlowChart) (dfs : Bool) (s? : Option Nat) :
    Nat → List BB → List Nat → Bool → List BB
  | 0, _, _, _ => []
  | _ + 1, [], _, _ => []
  | fuel + 1, cur :: rest, visited, found =>
    if cur.startEA ∈ visited then fwdGo g dfs s? fuel rest visited found
    else
      let visited' := cur.startEA :: visited
      let nexts := sortAscBy (·.startEA) (succsOf g cur)
      let queue' := if dfs then nexts ++ rest else rest ++ nexts
      let found' := found || (match s? with
        | some s => bbContains cur s
        | none => false)
      (if found' then [cur] else []) ++ fwdGo g dfs s? fuel queue' visited' found'

/-- `self[0]`, the entry block used to seed the forward traversals (IDA
flowcharts are nonempty; an empty model graph gives an empty traversal). -/
def entryList (g : FlowChart) : List BB :=
  g.blocks.take 1

/-- `FlowChart._dfs(startEA)`, fully consumed: `block_found` starts as
`startEA is None`. -/
def dfsBlocksFwd (g : FlowChart) (fuel : Nat) (s? : Option Nat) : List BB :=
  fwdGo g true s? fuel (entryList g) [] s?.isNone

/-- `FlowChart._bfs(startEA)`, fully consumed. -/
def bfsBlocksFwd (g : FlowChart) (fuel : Nat) (s? : Option Nat) : List BB :=
  fwdGo g false s? fuel (entryList g) [] s?.isNone

/-- Shared loop of `FlowChart._dfs_reverse` and `FlowChart._bfs_reverse`.
Each step records the yielded block together with the predecessors it enqueues
(`sorted(cur_block.preds(), reverse=True)` filtered by
`pred.startEA < cur_block.startEA`). -/
def revGo (g : FlowChart) (dfs : Bool) : Nat → List BB → List (BB × List BB)
  | 0, _ => []
  | _ + 1, [] => []
  | fuel + 1, cur :: rest =>
    let enq := (sortDescBy (·.startEA) (predsOf g cur)).filter
      (fun p => decide (p.startEA < cur.startEA))
    (cur, enq) :: revGo g dfs fuel (if dfs then enq ++ rest else rest ++ enq)

/-- Initial queue of the reverse traversals.  `if startEA:` is a Python
truthiness test, so a start address of `0` falls through to the no-start
branch.  With a start address, `find_block` may return `None`, which the loop
then dereferences (`cur_block.preds()`) before yielding anything: that is an
`AttributeError`.  Without one, the queue is
`list(sorted(self, key=startEA, reverse=True))[-1:]` — the LAST element of the
descending sort. -/
def revInit (g : FlowChart) (s? : Option Nat) : Except PyErr (List BB) :=
  match s? with
  | some s =>
    if s ≠ 0 then
      match find_block g s with
      | some b => .ok [b]
      | none => .error .attributeError
    else .ok (sortDescBy (·.startEA) g.blocks).getLast?.toList
  | none => .ok (sortDescBy (·.startEA) g.blocks).getLast?.toList

/-- `FlowChart._dfs_reverse(startEA)`, fully consumed. -/
def dfsBlocksRev (g : FlowChart) (fuel : Nat) (s? : Option Nat) :
    Except PyErr (List BB) :=
  (revInit g s?).map (fun q0 => (revGo g true fuel q0).map (·.1))

/-- `FlowChart._bfs_reverse(startEA)`, fully consumed. -/
def bfsBlocksRev (g : FlowChart) (fuel : Nat) (s? : Option Nat) :
    Except PyErr (List BB) :=
  (revInit g s?).map (fun q0 => (revGo g false fuel q0).map (·.1))

/-- The instruction-address wrapper shared by `dfs_iter_heads` and
`bfs_iter_heads`: walk each visited block's heads, starting at `startEA` for
the first block when `startEA` is truthy. -/
def headsForBlocks (H : List Nat) (s? : Option Nat) (rev : Bool) :
    Bool → List BB → List Nat
  | _, [] => []
  | first, b :: rest =>
    let useS := first && (match s? with
      | some s => decide (s ≠ 0)
      | none => false)
    (if rev then
      (pyHeads H b.startEA (if useS then s?.getD 0 else b.endEA)).reverse
     else
      pyHeads H (if useS then s?.getD 0 else b.startEA) b.endEA) ++
    headsForBlocks H s? rev false rest

/-- `FlowChart.dfs_iter_heads(startEA, reverse=False)`, fully consumed. -/
def dfsHeadsFwd (H : List Nat) (g : FlowChart) (fuel : Nat) (s? : Option Nat) :
    List Nat :=
  headsForBlocks H s? false true (dfsBlocksFwd g fuel s?)

/-- `FlowChart.bfs_iter_heads(startEA, reverse=False)`, fully consumed. -/
def bfsHeadsFwd (H : List Nat) (g : FlowChart) (fuel : Nat) (s? : Option Nat) :
    List Nat :=
  headsForBlocks H s? false true (bfsBlocksFwd g fuel s?)

/-- `FlowChart.dfs_iter_heads(startEA, reverse=True)`, fully consumed. -/
def dfsHeadsRev (H : List Nat) (g : FlowChart) (fuel : Nat) (s? : Option Nat) :
    Except PyErr (List Nat) :=
  (dfsBlocksRev g fuel s?).map (headsForBlocks H s? true true)

/-- `FlowChart.bfs_iter_heads(startEA, reverse=True)`, fully consumed. -/
def bfsHeadsRev (H : List Nat) (g : FlowChart) (fuel : Nat) (s? : Option Nat) :
    Except PyErr (List Nat) :=
  (bfsBlocksRev g fuel s?).map (headsForBlocks H s? true true)

/-- `PathBlock` as a pure linked chain: `node bb` is `PathBlock(bb, None)`,
`cons bb prev` is `PathBlock(bb, prev)` (the CPU-context cache fields are
modelled separately, see `CPath`). -/
inductive PathB where
  | node (bb : BB)
  | cons (bb : BB) (prev : PathB)
deriving DecidableEq, Repr

/-- The `bb` field of a `PathBlock`. -/
def topBB : PathB → BB
  | .node bb => bb
  | .cons bb _ => bb

/-- First-occurrence association-list lookup (a Python dict). -/
def alookup {α : Type} : List (Nat × α) → Nat → Option α
  | [], _ => none
  | e :: rest, s => if e.1 = s then some e.2 else alookup rest s

/-- Replace the entry for a key, or append it: a Python dict store. -/
def aset {α : Type} : List (Nat × α) → Nat → α → List (Nat × α)
  | [], s, v => [(s, v)]
  | e :: rest, s, v => if e.1 = s then (s, v) :: rest else e :: aset rest s v

/-- `self._path_cache.get(startEA, [])` (the `defaultdict` holds lists). -/
def lookupPC (cache : List (Nat × List PathB)) (s : Nat) : List PathB :=
  (alookup cache s).getD []

/-- `FlowChart._build_path(cur_block, visited)`, fully consumed, against a
fixed snapshot of `self._path_cache` (during one full consumption the only
cache entry `get_paths` mutates is the target block's own, which this
recursion reads once before anything is appended, so the snapshot is exact).
`fuel` is an upper bound on the recursion depth: the two `continue` guards
(`blk_startEA in visited or blk_startEA > cb_startEA`, with `cb_startEA` just
added to `visited`) mean every recursive call strictly decreases `startEA`, so
any `fuel > cur.startEA` is enough and the `0` branch is never taken.  The
mutable `visited` set is threaded as the list of startEAs currently on the
recursion stack, exactly the add/remove discipline of the source. -/
def buildPathC (g : FlowChart) (cache : List (Nat × List PathB)) :
    Nat → BB → List Nat → List PathB
  | 0, _, _ => []
  | fuel + 1, cur, visited =>
    let visited' := cur.startEA :: visited
    let pc := lookupPC cache cur.startEA
    if pc.isEmpty then
      let parents := predsOf g cur
      if parents.isEmpty then [PathB.node cur]
      else parents.flatMap (fun blk =>
        if blk.startEA ∈ visited' || decide (blk.startEA > cur.startEA) then []
        else (buildPathC g cache fuel blk visited').map (PathB.cons cur))
    else pc

/-- The complete path list `_build_path` produces for a block against an empty
cache. -/
def canonical (g : FlowChart) (b : BB) : List PathB :=
  buildPathC g [] (b.startEA + 1) b []

/-- The two caches `FlowChart.__init__` creates: `_path_cache` (block start →
paths discovered so far) and `_gen_cache` (block start → suspended generator,
modelled by the list of paths it still has to yield; an exhausted generator is
an entry with `[]`, and it is still truthy, so `if not path_generator:` only
fires when the entry is missing). -/
structure FCState where
  pathCache : List (Nat × List PathB)
  genCache : List (Nat × List PathB)
deriving DecidableEq, Repr

/-- The state of a graph that was just built (`__init__`): both caches empty. -/
def freshState : FCState := ⟨[], []⟩

/-- `FlowChart.get_paths(ea)`, consumed to completion.  Returns the yielded
paths, the updated caches, and whether a new `_build_path` generator had to be
created (`True` exactly when `self._gen_cache.get(block.startEA)` was absent).
When `find_block` returns `None`, `block.startEA` raises `AttributeError`
before the first yield.  Every yielded path is appended to
`self._path_cache[path.bb.startEA]`, i.e. the target block's list. -/
def get_paths_all (g : FlowChart) (st : FCState) (ea : Nat) :
    Except PyErr (List PathB × FCState × Bool) :=
  match find_block g ea with
  | none => .error .attributeError
  | some block =>
    let s := block.startEA
    let cached := lookupPC st.pathCache s
    match alookup st.genCache s with
    | some rem =>
      .ok (cached ++ rem,
        ⟨aset st.pathCache s (cached ++ rem), aset st.genCache s []⟩, false)
    | none =>
      let gen := buildPathC g st.pathCache (s + 1) block []
      .ok (cached ++ gen,
        ⟨aset st.pathCache s (cached ++ gen), aset st.genCache s []⟩, true)

/-- `PathBlock` with its mutable CPU-context cache: `cache` holds
`(self._context, self._context_ea)` when `self._context` is set.  The context
itself (`ProcessorContext`) is opaque to this module; it is modelled by the
log of instruction addresses the external `processor.execute` has been applied
to, so that replay counts are observable. -/
inductive CPath where
  | node (bb : BB) (cache : Option (List Nat × Nat))
  | cons (bb : BB) (cache : Option (List Nat × Nat)) (prev : CPath)
deriving DecidableEq, Repr

/-- The `bb` of a cached path node. -/
def cpBB : CPath → BB
  | .node bb _ => bb
  | .cons bb _ _ => bb

/-- The context cache of a cached path node. -/
def cpCache : CPath → Option (List Nat × Nat)
  | .node _ c => c
  | .cons _ c _ => c

/-- Erase the context cache of the head node only. -/
def clearTop : CPath → CPath
  | .node bb _ => .node bb none
  | .cons bb _ prev => .cons bb none prev

/-- True when no node of the chain has a context cache yet. -/
def allCold : CPath → Bool
  | .node _ c => c.isNone
  | .cons _ c prev => c.isNone && allCold prev

/-- Errors `PathBlock.cpu_context` can raise: the `KeyError` for an address
outside the node's own block (the spec's `AddressOutOfRangeError`), and the
`assert end is not None` failure. -/
inductive CtxErr where
  | addressOutOfRange
  | assertionFailed
deriving DecidableEq, Repr

/-- The `end` address `cpu_context` computes: `self.bb.endEA` when `ea` is
`None`, else `idc.NextHead(ea)`. -/
def endOf (H : List Nat) (p : CPath) (ea? : Option Nat) : Option Nat :=
  match ea? with
  | none => some (cpBB p).endEA
  | some ea => nextHead H ea

/-- `PathBlock.cpu_context(ea)`.  Returns the context handed to the caller
(`deepcopy` of the cached snapshot — copying is the identity on the pure
model), the chain with its updated caches, and the list of instruction
addresses passed to `processor.execute` during this call (each loop iteration
invokes the external processor step exactly once). -/
def cpu_context (H : List Nat) : CPath → Option Nat →
    Except CtxErr (List Nat × CPath × List Nat)
  | .node bb cache, ea? =>
    if h : ea?.isSome ∧ ¬(bbContains bb (ea?.getD 0) = true) then
      .error .addressOutOfRange
    else
      match endOf H (.node bb cache) ea? with
      | none => .error .assertionFailed
      | some en =>
        match cache with
        | some (ctx, cea) =>
          if cea = en then .ok (ctx, .node bb cache, [])
          else if cea > en then
            let ips := pyHeads H bb.startEA en
            .ok (ips, .node bb (some (ips, en)), ips)
          else
            let ips := pyHeads H cea en
            .ok (ctx ++ ips, .node bb (some (ctx ++ ips, en)), ips)
        | none =>
          let ips := pyHeads H bb.startEA en
          .ok (ips, .node bb (some (ips, en)), ips)
  | .cons bb cache prev, ea? =>
    if h : ea?.isSome ∧ ¬(bbContains bb (ea?.getD 0) = true) then
      .error .addressOutOfRange
    else
      match endOf H (.cons bb cache prev) ea? with
      | none => .error .assertionFailed
      | some en =>
        match cache with
        | some (ctx, cea) =>
          if cea = en then .ok (ctx, .cons bb cache prev, [])
          else if cea > en then
            match cpu_context H prev none with
            | .error e => .error e
            | .ok (c, prev', ex) =>
              let ips := pyHeads H bb.startEA en
              .ok (c ++ ips, .cons bb (some (c ++ ips, en)) prev', ex ++ ips)
          else
            let ips := pyHeads H cea en
            .ok (ctx ++ ips, .cons bb (some (ctx ++ ips, en)) prev, ips)
        | none =>
          match cpu_context H prev none with
          | .error e => .error e
          | .ok (c, prev', ex) =>
            let ips := pyHeads H bb.startEA en
            .ok (c ++ ips, .cons bb (some (c ++ ips, en)) prev', ex ++ ips)

/-- The blocks of a chain, root (function-entry side) first. -/
def pathBlocksRoot : CPath → List BB
  | .node bb _ => [bb]
  | .cons bb _ prev => pathBlocksRoot prev ++ [bb]

/-- The instruction addresses a fully cold chain replays when asked for its
default (block-end) context: every head of every block on the chain. -/
def coldList (H : List Nat) (p : CPath) : List Nat :=
  (pathBlocksRoot p).flatMap (fun b => pyHeads H b.startEA b.endEA)

/-- The chain state after a cold default-context computation: every node's
cache holds the heads replayed up to its own block end. -/
def coldWarm (H : List Nat) : CPath → CPath
  | .node bb _ => .node bb (some (pyHeads H bb.startEA bb.endEA, bb.endEA))
  | .cons bb _ prev =>
    .cons bb (some (coldList H (.cons bb none prev), bb.endEA)) (coldWarm H prev)

/-- The instruction addresses replayed by the recursive parent computation of
a chain's head: the cold list of the parent chain, or nothing at the entry. -/
def parentColdList (H : List Nat) : CPath → List Nat
  | .node _ _ => []
  | .cons _ _ prev => coldList H prev

/-- The chain after a cold query of the head at exclusive endpoint `en`:
parents filled to their block ends, head filled to `en`. -/
def coldFillAt (H : List Nat) (p : CPath) (en : Nat) : CPath :=
  match p with
  | .node bb _ =>
    .node bb (some (pyHeads H bb.startEA en, en))
  | .cons bb _ prev =>
    .cons bb (some (coldList H prev ++ pyHeads H bb.startEA en, en)) (coldWarm H prev)

/- ------------------------------------------------------------------ -/
/- function_tracing/utils.py : pack / unpack / float reinterpretation  -/
/- ------------------------------------------------------------------ -/

/-- Error kinds of the numeric utilities: `FunctionTracingError` for an
unsupported width/precision (the spec's `InvalidWidthError` /
`InvalidPrecisionError`) and Python's `struct.error`. -/
inductive UErr where
  | invalidWidth
  | invalidPrecision
  | structError
deriving DecidableEq, Repr

/-- The `struct_unpack_table` of widths to `struct` format characters. -/
def struct_unpack_table : Nat → Option String
  | 1 => some "B"
  | 2 => some "H"
  | 4 => some "L"
  | 8 => some "Q"
  | 16 => some "QQ"
  | _ => none

/-- `_get_format_str(width, signed)`.  The source line is
`return ">" if BIG_ENDIAN else "<" + format_char`: by Python operator
precedence this is `">" if BIG_ENDIAN else ("<" + format_char)`, so on a
big-endian target the format character is dropped and the bare string `">"`
is returned. -/
def _get_format_str (be : Bool) (width : Nat) (sgn : Bool) : Except UErr String :=
  match struct_unpack_table width with
  | none => .error .invalidWidth
  | some fc =>
    let fc := if sgn then fc.toLower else fc
    .ok (if be then ">" else "<" ++ fc)

/-- Size and signedness of the integer `struct` format characters used here. -/
def fmtCharInt : Char → Option (Nat × Bool)
  | 'B' => some (1, false)
  | 'b' => some (1, true)
  | 'H' => some (2, false)
  | 'h' => some (2, true)
  | 'L' => some (4, false)
  | 'l' => some (4, true)
  | 'Q' => some (8, false)
  | 'q' => some (8, true)
  | _ => none

/-- Split a `struct` format string into its byte-order flag (`<` little,
`>` big; the native order of the analysis host is little-endian) and its item
characters. -/
def splitFmt (s : String) : Bool × List Char :=
  match s.data with
  | [] => (false, [])
  | c :: rest =>
    if c = '<' then (false, rest)
    else if c = '>' then (true, rest)
    else (false, s.data)

/-- Little-endian byte encoding of `v` over `n` bytes. -/
def leBytes : Nat → Nat → List Nat
  | 0, _ => []
  | n + 1, v => v % 256 :: leBytes n (v / 256)

/-- Little-endian byte decoding. -/
def leDecode : List Nat → Nat
  | [] => 0
  | b :: rest => b + 256 * leDecode rest

/-- Big-endian byte encoding. -/
def beBytes (n v : Nat) : List Nat :=
  (leBytes n v).reverse

/-- Big-endian byte decoding. -/
def beDecode (l : List Nat) : Nat :=
  leDecode l.reverse

/-- `struct.unpack` item decoding: consume `size` bytes per format character,
with a final buffer-length check (Python raises `struct.error` when the buffer
does not match `calcsize`). -/
def decodeItems (be : Bool) : List Char → List Nat → Except UErr (List Int)
  | [], [] => .ok []
  | [], _ :: _ => .error .structError
  | c :: cs, buf =>
    match fmtCharInt c with
    | none => .error .structError
    | some (size, sgn) =>
      if buf.length < size then .error .structError
      else
        let raw := if be then beDecode (buf.take size) else leDecode (buf.take size)
        let v : Int := if sgn ∧ 2 ^ (8 * size - 1) ≤ raw
          then (raw : Int) - 2 ^ (8 * size) else (raw : Int)
        (decodeItems be cs (buf.drop size)).map (fun vs => v :: vs)

/-- `struct.pack` item encoding, with Python's per-item range checks. -/
def packItems (be : Bool) : List Char → List Int → Except UErr (List Nat)
  | [], [] => .ok []
  | [], _ :: _ => .error .structError
  | _ :: _, [] => .error .structError
  | c :: cs, v :: vs =>
    match fmtCharInt c with
    | none => .error .structError
    | some (size, sgn) =>
      let lo : Int := if sgn then -(2 ^ (8 * size - 1)) else 0
      let hi : Int := if sgn then 2 ^ (8 * size - 1) else 2 ^ (8 * size)
      if v < lo ∨ hi ≤ v then .error .structError
      else
        let raw := (v.emod (2 ^ (8 * size))).toNat
        let bytes := if be then beBytes size raw else leBytes size raw
        (packItems be cs vs).map (fun rest => bytes ++ rest)

/-- `get_mask(size)`: `2 ** (8 * size) - 1`. -/
def get_mask (size : Nat) : Nat :=
  2 ^ (8 * size) - 1

/-- `get_byte_width(value)`: 1/2/4/8, or Python `None` past 8 bytes. -/
def get_byte_width (value : Int) : Option Nat :=
  if value ≤ 0xFF then some 1
  else if value ≤ 0xFFFF then some 2
  else if value ≤ 0xFFFFFFFF then some 4
  else if value ≤ 0xFFFFFFFFFFFFFFFF then some 8
  else none

/-- Python `(a << 64) | b` for `-2^63 ≤ b < 2^64`: on two's-complement
integers this equals `a * 2^64 + b` when `b ≥ 0`, and plain `b` when `b < 0`
(a negative `b` has every bit above 63 set, swallowing `a`'s bits). -/
def pyShlOr64 (a b : Int) : Int :=
  if 0 ≤ b then a * 2 ^ 64 + b else b

/-- `struct_unpack(buffer, signed)` parameterised by the architecture's
`BIG_ENDIAN` flag.  Width is the buffer length; 16-byte buffers are decoded as
two 64-bit halves recombined by endianness. -/
def struct_unpack (be : Bool) (buffer : List Nat) (sgn : Bool) :
    Except UErr Int :=
  let n := buffer.length
  match _get_format_str be n sgn with
  | .error e => .error e
  | .ok fmt =>
    let (fbe, cs) := splitFmt fmt
    match decodeItems fbe cs buffer with
    | .error e => .error e
    | .ok vals =>
      if n = 16 then
        match vals with
        | [a, b] => .ok (if be then pyShlOr64 a b else pyShlOr64 b a)
        | _ => .error .structError
      else
        match vals with
        | v :: _ => .ok v
        | [] => .error .structError

/-- `struct_pack(value, width)` parameterised by `BIG_ENDIAN`.
`width = width or get_byte_width(value)` (`0` and `None` are both falsy); a
`None` width is then not a key of the table, giving the invalid-width error.
Non-16-byte values are masked with `get_mask(width)` (`& mask` is `% 2^(8w)`
on two's-complement integers); 16-byte values are split into
`value >> 64` and `value & 0xFF..F` and packed as two 64-bit items. -/
def struct_pack (be : Bool) (value : Int) (width : Option Nat) :
    Except UErr (List Nat) :=
  let wkey := match width with
    | none => (get_byte_width value).getD 0
    | some w0 => if w0 = 0 then (get_byte_width value).getD 0 else w0
  match _get_format_str be wkey false with
  | .error e => .error e
  | .ok fmt =>
    let (fbe, cs) := splitFmt fmt
    if wkey = 16 then
      if be then packItems fbe cs [value.fdiv (2 ^ 64), value.emod (2 ^ 64)]
      else packItems fbe cs [value.emod (2 ^ 64), value.fdiv (2 ^ 64)]
    else packItems fbe cs [value.emod (2 ^ (8 * wkey))]

/-- Bit length with explicit fuel (64 bits is enough for every value the
float conversions handle; structural recursion keeps it kernel-evaluable). -/
def bitLenAux : Nat → Nat → Nat
  | 0, _ => 0
  | fuel + 1, n => if n = 0 then 0 else bitLenAux fuel (n / 2) + 1

/-- Number of bits of `n` (0 for 0). -/
def bitLen (n : Nat) : Nat :=
  bitLenAux 64 n

/-- Round `sig / 2^k` to nearest, ties to even. -/
def rne (sig k : Nat) : Nat :=
  if k = 0 then sig
  else
    let q := sig / 2 ^ k
    let r := sig % 2 ^ k
    let half := 2 ^ (k - 1)
    if half < r then q + 1
    else if r < half then q
    else if q % 2 = 1 then q + 1 else q

/-- `sig * 2^sh` with round-to-nearest-even on right shifts. -/
def roundShift (sig : Nat) (sh : Int) : Nat :=
  if 0 ≤ sh then sig * 2 ^ sh.toNat else rne sig (-sh).toNat

/-- Assemble a binary32 bit pattern from sign, biased exponent and mantissa. -/
def encodeF32 (s e m : Nat) : Nat :=
  s * 2 ^ 31 + e * 2 ^ 23 + m

/-- IEEE-754 conversion of a binary64 bit pattern to the binary32 bit pattern
`struct.pack("f", val)` stores (round to nearest, ties to even; NaN payloads
keep the top mantissa bits and are quieted). -/
def f32ofF64bits (x : Nat) : Nat :=
  let s : Nat := x / 2 ^ 63 % 2
  let e : Nat := x / 2 ^ 52 % 2 ^ 11
  let m : Nat := x % 2 ^ 52
  if e = 2047 then
    if m = 0 then encodeF32 s 255 0
    else encodeF32 s 255 ((m / 2 ^ 29) ||| 2 ^ 22)
  else
    let sig := if e = 0 then m else 2 ^ 52 + m
    let exp2 : Int := if e = 0 then -1074 else (e : Int) - 1075
    if sig = 0 then encodeF32 s 0 0
    else
      let L : Nat := bitLen sig
      let E : Int := exp2 + L - 1
      if E < -126 then
        let t := roundShift sig (exp2 + 149)
        if 2 ^ 23 ≤ t then encodeF32 s 1 (t - 2 ^ 23)
        else encodeF32 s 0 t
      else
        let t := roundShift sig (24 - (L : Int))
        let t' := if t = 2 ^ 24 then 2 ^ 23 else t
        let E' := if t = 2 ^ 24 then E + 1 else E
        if 127 < E' then encodeF32 s 255 0
        else encodeF32 s (E' + 127).toNat (t' - 2 ^ 23)

/-- IEEE-754 widening of a binary32 bit pattern to the binary64 bit pattern
`struct.unpack("f", ...)` yields as a Python float (exact). -/
def f64ofF32bits (x : Nat) : Nat :=
  let s : Nat := x / 2 ^ 31 % 2
  let e : Nat := x / 2 ^ 23 % 2 ^ 8
  let m : Nat := x % 2 ^ 23
  if e = 255 then s * 2 ^ 63 + 2047 * 2 ^ 52 + m * 2 ^ 29
  else if e = 0 then
    if m = 0 then s * 2 ^ 63
    else
      let j := bitLen m - 1
      s * 2 ^ 63 + (j + 874) * 2 ^ 52 + (m - 2 ^ j) * 2 ^ (52 - j)
  else s * 2 ^ 63 + (e + 896) * 2 ^ 52 + m * 2 ^ 29

/-- `float_to_int(val, precision)`.  Python floats are binary64; `val` is
represented by its bit pattern `vbits < 2^64`.  Precision 1 is
`struct.unpack("H", struct.pack("f", val))[0]`: the pack produces 4 bytes but
`"H"` requires exactly 2, so `struct.unpack` raises `struct.error`.
Precision 2 is `struct.unpack("Q", struct.pack("d", val))[0]`. -/
def float_to_int (vbits : Nat) (precision : Nat) : Except UErr Nat :=
  if precision = 1 then
    let buf := leBytes 4 (f32ofF64bits vbits)
    if buf.length = 2 then .ok (leDecode buf) else .error .structError
  else if precision = 2 then
    let buf := leBytes 8 (vbits % 2 ^ 64)
    if buf.length = 8 then .ok (leDecode buf) else .error .structError
  else .error .invalidPrecision

/-- `int_to_float(val, precision)`, result represented by its binary64 bit
pattern.  Precision 1 is `struct.unpack("f", struct.pack("H", val))[0]`: the
pack produces 2 bytes (after a 16-bit range check) but `"f"` requires exactly
4, so `struct.unpack` raises `struct.error`.  Precision 2 is
`struct.unpack("d", struct.pack("Q", val))[0]`. -/
def int_to_float (v : Nat) (precision : Nat) : Except UErr Nat :=
  if precision = 1 then
    if v < 2 ^ 16 then
      let buf := leBytes 2 v
      if buf.length = 4 then .ok (f64ofF32bits (leDecode buf))
      else .error .structError
    else .error .structError
  else if precision = 2 then
    if v < 2 ^ 64 then
      let buf := leBytes 8 v
      if buf.length = 8 then .ok (leDecode buf) else .error .structError
    else .error .structError
  else .error .invalidPrecision

/- ------------------------------------------------------------------ -/
/- Predicates used by the theorems                                     -/
/- ------------------------------------------------------------------ -/

/-- Blocks reachable by the forward traversals: the entry block `self[0]` and
everything transitively reachable through `succs()`. -/
inductive ReachableF (g : FlowChart) : BB → Prop where
  | entry : ∀ b, g.blocks.head? = some b → ReachableF g b
  | step : ∀ b c, ReachableF g b → c ∈ succsOf g b → ReachableF g c

/-- The root (entry-side) block of a path chain. -/
def rootBB : PathB → BB
  | .node bb => bb
  | .cons _ p => rootBB p

/-- Chain condition of a path: every link is a predecessor edge whose start
address is strictly smaller than its successor's (the back-edge exclusion). -/
def chainOk (g : FlowChart) : PathB → Bool
  | .node _ => true
  | .cons bb p =>
    decide (topBB p ∈ predsOf g bb) && decide ((topBB p).startEA < bb.startEA) &&
    chainOk g p

/-- The walks the code actually enumerates: a back-edge-free predecessor chain
ending at `blk` whose root has no predecessors. -/
def goodPB (g : FlowChart) : PathB → BB → Bool
  | .node bb, blk => bb == blk && (predsOf g bb).isEmpty
  | .cons bb p, blk =>
    bb == blk && decide (topBB p ∈ predsOf g bb) &&
    decide ((topBB p).startEA < bb.startEA) && goodPB g p (topBB p)

/-- The walks claimed by the spec: a loop-free back-edge-free predecessor
chain ending at `blk` whose root is the FUNCTION ENTRY block (loop-freedom is
implied by the strict start-address decrease along the chain). -/
def claimEntryPath (g : FlowChart) (q : PathB) (blk : BB) : Bool :=
  topBB q == blk && chainOk g q &&
  (match g.blocks.head? with
   | some e => rootBB q == e
   | none => false)

/-- Every `_path_cache` entry is the complete canonical path list of its
block. -/
def CacheOKC (g : FlowChart) (cache : List (Nat × List PathB)) : Prop :=
  ∀ e ∈ cache, ∃ b ∈ g.blocks, e.1 = b.startEA ∧ e.2 = canonical g b

/-- Invariant of the caches after any sequence of fully consumed `get_paths`
calls: every `_path_cache` entry is complete (and its generator exhausted),
and every cached generator is exhausted with its block's path list complete. -/
def StInv (g : FlowChart) (st : FCState) : Prop :=
  (∀ e ∈ st.pathCache, ∃ b ∈ g.blocks, e.1 = b.startEA ∧ e.2 = canonical g b ∧
    alookup st.genCache e.1 = some []) ∧
  (∀ e ∈ st.genCache, e.2 = [] ∧ ∃ b ∈ g.blocks, e.1 = b.startEA ∧
    alookup st.pathCache e.1 = some (canonical g b))

instance (g : FlowChart) (st : FCState) : Decidable (StInv g st) := by
  unfold StInv
  infer_instance

/- Concrete instances used by counterexamples and witnesses. -/

/-- Block A of the spec's diamond example. -/
def blkA : BB := ⟨0, 4, [4, 8], []⟩

/-- Block B of the diamond. -/
def blkB : BB := ⟨4, 8, [12], [0]⟩

/-- Block C of the diamond. -/
def blkC : BB := ⟨8, 12, [12], [0]⟩

/-- Block D of the diamond. -/
def blkD : BB := ⟨12, 16, [], [4, 8]⟩

/-- The diamond graph A→B, A→C, B→D, C→D of the spec's example. -/
def diamond : FlowChart := ⟨[blkA, blkB, blkC, blkD]⟩

/-- Entry block of a two-block function whose body loops back to the entry. -/
def blkLA : BB := ⟨0, 4, [4], [4]⟩

/-- Second block of the looping function. -/
def blkLB : BB := ⟨4, 8, [0], [0]⟩

/-- A function whose entry block has a (back-edge) predecessor:
A(entry) → B and B → A. -/
def loopG : FlowChart := ⟨[blkLA, blkLB]⟩

/-- First block of a straight-line two-block function. -/
def blkSA : BB := ⟨0, 4, [4], []⟩

/-- Second block of the straight-line function. -/
def blkSB : BB := ⟨4, 8, [], [0]⟩

/-- A straight-line two-block graph A(entry) → B. -/
def lineG : FlowChart := ⟨[blkSA, blkSB]⟩

/-- A small instruction-head list (every address in [0, 16) is a head). -/
def hds16 : List Nat := [0, 1, 2, 3, 4, 5, 6, 7, 8, 9, 10, 11, 12, 13, 14, 15]

/-- The diamond paths to D, in yield order: [A,B,D] then [A,C,D]. -/
def pathABD : PathB := .cons blkD (.cons blkB (.node blkA))

/-- The second diamond path. -/
def pathACD : PathB := .cons blkD (.cons blkC (.node blkA))

/-- The single diamond path to B. -/
def pathAB : PathB := .cons blkB (.node blkA)

/-- The cache state after fully consuming `get_paths` for D on the fresh
diamond. -/
def stD : FCState := ⟨[(12, [pathABD, pathACD])], [(12, [])]⟩

/-- The cache state after fully consuming `get_paths` for B on the fresh
diamond. -/
def stB : FCState := ⟨[(4, [pathAB])], [(4, [])]⟩

/- ------------------------------------------------------------------ -/
/- Helper lemmas                                                       -/
/- ------------------------------------------------------------------ -/

theorem alookup_aset_self {α : Type} (m : List (Nat × α)) (s : Nat) (v : α) :
    alookup (aset m s v) s = some v := by
  induction m with
  | nil => simp [aset, alookup]
  | cons e rest ih =>
    by_cases h : e.1 = s
    · simp [aset, alookup, h]
    · simp [aset, alookup, h, ih]

theorem alookup_aset_ne {α : Type} (m : List (Nat × α)) (s t : Nat) (v : α)
    (h : t ≠ s) : alookup (aset m s v) t = alookup m t := by
  have hst : ¬(s = t) := fun hh => h hh.symm
  induction m with
  | nil => simp [aset, alookup, hst]
  | cons e rest ih =>
    by_cases he : e.1 = s
    · simp [aset, alookup, he, hst]
    · simp [aset, alookup, he, ih]

theorem aset_aset_self {α : Type} (m : List (Nat × α)) (s : Nat) (v : α) :
    aset (aset m s v) s v = aset m s v := by
  induction m with
  | nil => simp [aset]
  | cons e rest ih =>
    by_cases h : e.1 = s
    · simp [aset, h]
    · simp [aset, h, ih]

theorem mem_aset {α : Type} (m : List (Nat × α)) (s : Nat) (v : α) (e : Nat × α)
    (h : e ∈ aset m s v) : e = (s, v) ∨ e ∈ m := by
  induction m with
  | nil =>
    simp [aset] at h
    exact Or.inl h
  | cons e0 rest ih =>
    by_cases h0 : e0.1 = s
    · simp only [aset, if_pos h0] at h
      rcases List.mem_cons.mp h with h1 | h1
      · exact Or.inl h1
      · exact Or.inr (List.mem_cons_of_mem _ h1)
    · simp only [aset, if_neg h0] at h
      rcases List.mem_cons.mp h with h1 | h1
      · subst h1
        exact Or.inr (List.mem_cons_self _ _)
      · rcases ih h1 with h2 | h2
        · exact Or.inl h2
        · exact Or.inr (List.mem_cons_of_mem _ h2)

theorem findBlockByStart_start (g : FlowChart) (s : Nat) (b : BB)
    (h : findBlockByStart g s = some b) : b.startEA = s := by
  have := List.find?_some h
  simpa using this

theorem findBlockByStart_mem (g : FlowChart) (s : Nat) (b : BB)
    (h : findBlockByStart g s = some b) : b ∈ g.blocks :=
  List.mem_of_find?_eq_some h

theorem mem_predsOf (g : FlowChart) (b p : BB) (h : p ∈ predsOf g b) :
    p ∈ g.blocks := by
  unfold predsOf at h
  rcases List.mem_filterMap.mp h with ⟨s, _, hf⟩
  exact findBlockByStart_mem g s p hf

theorem find_block_mem (g : FlowChart) (ea : Nat) (b : BB)
    (h : find_block g ea = some b) : b ∈ g.blocks :=
  List.mem_of_find?_eq_some h

theorem find_block_contains (g : FlowChart) (ea : Nat) (b : BB)
    (h : find_block g ea = some b) : bbContains b ea = true := by
  have := List.find?_some h
  simpa using this

theorem startEA_inj_list (l : List BB) (hn : (l.map (·.startEA)).Nodup)
    (b c : BB) (hb : b ∈ l) (hc : c ∈ l) (h : b.startEA = c.startEA) : b = c := by
  induction l with
  | nil => cases hb
  | cons x rest ih =>
    rw [List.map_cons, List.nodup_cons] at hn
    rcases List.mem_cons.mp hb with rfl | hb' <;>
      rcases List.mem_cons.mp hc with rfl | hc'
    · rfl
    · exact absurd (h ▸ List.mem_map_of_mem (·.startEA) hc') hn.1
    · exact absurd (h.symm ▸ List.mem_map_of_mem (·.startEA) hb') hn.1
    · exact ih hn.2 hb' hc'

theorem startEA_inj (g : FlowChart) (hwf : WF g) (b c : BB)
    (hb : b ∈ g.blocks) (hc : c ∈ g.blocks) (h : b.startEA = c.startEA) :
    b = c :=
  startEA_inj_list g.blocks hwf.1 b c hb hc h

/- ------------------------------------------------------------------ -/
/- C4 and C5: pack/unpack and float reinterpretation                   -/
/- ------------------------------------------------------------------ -/

/-- C4: the claim states that `struct_unpack(struct_pack(v, w)) == v` holds
under BOTH byte orders of the target architecture, with
`struct_pack(0x1234, 2)` yielding bytes `0x34, 0x12` little-endian.  The
little-endian side behaves as claimed, but on a big-endian architecture
`_get_format_str` returns the bare string `">"` (the `"<" + format_char` binds
inside the conditional expression), so both pack and unpack raise
`struct.error` and the round-trip fails. -/
theorem c4_pack_unpack_endianness :
    struct_pack false 0x1234 (some 2) = .ok [0x34, 0x12] ∧
    struct_unpack false [0x34, 0x12] false = .ok 0x1234 ∧
    struct_pack true 0x1234 (some 2) = .error .structError ∧
    struct_unpack true [0x34, 0x12] false = .error .structError :=
  ⟨rfl, rfl, rfl, rfl⟩

/-- C5: the claim states that `int_to_float(float_to_int(f, p), p) == f` for
both precisions.  At precision 2 the round-trip holds bit-exactly (shown here
at `f = 1.0`, bit pattern `0x3FF0000000000000`), but at precision 1 the code
packs the 4-byte `"f"` format and unpacks the 2-byte `"H"` format (and vice
versa), so `struct.unpack` raises `struct.error` for every float and the
round-trip is impossible. -/
theorem c5_float_int_roundtrip :
    float_to_int 0x3FF0000000000000 1 = .error .structError ∧
    int_to_float 0x3F80 1 = .error .structError ∧
    float_to_int 0x3FF0000000000000 2 = .ok 0x3FF0000000000000 ∧
    int_to_float 0x3FF0000000000000 2 = .ok 0x3FF0000000000000 :=
  ⟨rfl, rfl, rfl, rfl⟩

/- ------------------------------------------------------------------ -/
/- C10: get_paths on an address outside every block                    -/
/- ------------------------------------------------------------------ -/

/-- C10: when no block of the graph contains the address, `find_block`
returns `None` and `get_paths` immediately evaluates `block.startEA` on it,
so consuming the sequence raises `AttributeError` — it neither yields an
empty sequence nor a defined not-found error. -/
theorem c10_get_paths_attribute_error (g : FlowChart) (st : FCState) (ea : Nat)
    (h : ∀ b ∈ g.blocks, bbContains b ea = false) :
    get_paths_all g st ea = .error .attributeError := by
  unfold get_paths_all
  have hfb : find_block g ea = none := by
    apply List.find?_eq_none.mpr
    intro b hb
    simp [h b hb]
  rw [hfb]

/-- Witness for C10 on the diamond graph at the absent address 100. -/
theorem c10_get_paths_attribute_error_witness :
    (∀ b ∈ diamond.blocks, bbContains b 100 = false) ∧
    get_paths_all diamond freshState 100 = .error .attributeError :=
  ⟨by decide, c10_get_paths_attribute_error diamond freshState 100 (by decide)⟩

/- ------------------------------------------------------------------ -/
/- C2: repeated get_paths is served from the cache                     -/
/- ------------------------------------------------------------------ -/

/-- C2: after a `get_paths(ea)` call is consumed to completion, a second
`get_paths(ea)` yields the identical sequence of paths in the same order and
leaves the caches unchanged, and it does NOT re-invoke `_build_path` (the
returned flag records whether a new generator was created: the second call
finds the exhausted generator, which is still truthy, in `_gen_cache`). -/
theorem c2_get_paths_replay (g : FlowChart) (st : FCState) (ea : Nat)
    (out : List PathB) (st' : FCState) (fl : Bool)
    (h : get_paths_all g st ea = .ok (out, st', fl)) :
    get_paths_all g st' ea = .ok (out, st', false) := by
  unfold get_paths_all at h ⊢
  cases hfb : find_block g ea with
  | none => rw [hfb] at h; cases h
  | some blk =>
    rw [hfb] at h
    simp only at h ⊢
    cases hgen : alookup st.genCache blk.startEA with
    | some rem =>
      rw [hgen] at h
      simp only [Except.ok.injEq, Prod.mk.injEq] at h
      obtain ⟨hout, hst, hfl⟩ := h
      rw [← hst]
      simp only [alookup_aset_self, lookupPC]
      rw [← hout]
      simp only [Option.getD_some, List.append_nil, aset_aset_self, lookupPC]
    | none =>
      rw [hgen] at h
      simp only [Except.ok.injEq, Prod.mk.injEq] at h
      obtain ⟨hout, hst, hfl⟩ := h
      rw [← hst]
      simp only [alookup_aset_self, lookupPC]
      rw [← hout]
      simp only [Option.getD_some, List.append_nil, aset_aset_self, lookupPC]

/-- Witness for C2: the diamond's two paths to D are yielded again, in the
same order, by a second fully consumed call, without a new generator. -/
theorem c2_get_paths_replay_witness :
    get_paths_all diamond freshState 13 = .ok ([pathABD, pathACD], stD, true) ∧
    get_paths_all diamond stD 13 = .ok ([pathABD, pathACD], stD, false) :=
  ⟨by rfl,
   c2_get_paths_replay diamond freshState 13 [pathABD, pathACD] stD true (by rfl)⟩

/- ------------------------------------------------------------------ -/
/- Sorting lemmas                                                      -/
/- ------------------------------------------------------------------ -/

theorem mem_insertDescBy (key : BB → Nat) (x : BB) (l : List BB) (y : BB) :
    y ∈ insertDescBy key x l ↔ y = x ∨ y ∈ l := by
  induction l with
  | nil => simp [insertDescBy]
  | cons z zs ih =>
    by_cases h : key z ≤ key x
    · simp [insertDescBy, h]
    · simp [insertDescBy, h, ih]
      tauto

theorem mem_sortDescBy (key : BB → Nat) (l : List BB) (y : BB) :
    y ∈ sortDescBy key l ↔ y ∈ l := by
  induction l with
  | nil => simp [sortDescBy]
  | cons z zs ih => simp [sortDescBy, mem_insertDescBy, ih]

theorem mem_insertAscBy (key : BB → Nat) (x : BB) (l : List BB) (y : BB) :
    y ∈ insertAscBy key x l ↔ y = x ∨ y ∈ l := by
  induction l with
  | nil => simp [insertAscBy]
  | cons z zs ih =>
    by_cases h : key x ≤ key z
    · simp [insertAscBy, h]
    · simp [insertAscBy, h, ih]
      tauto

theorem mem_sortAscBy (key : BB → Nat) (l : List BB) (y : BB) :
    y ∈ sortAscBy key l ↔ y ∈ l := by
  induction l with
  | nil => simp [sortAscBy]
  | cons z zs ih => simp [sortAscBy, mem_insertAscBy, ih]

theorem pairwise_insertDescBy (key : BB → Nat) (x : BB) (l : List BB)
    (h : l.Pairwise (fun a b => key b ≤ key a)) :
    (insertDescBy key x l).Pairwise (fun a b => key b ≤ key a) := by
  induction l with
  | nil => simp [insertDescBy]
  | cons z zs ih =>
    rw [List.pairwise_cons] at h
    by_cases hz : key z ≤ key x
    · rw [insertDescBy, if_pos hz, List.pairwise_cons]
      constructor
      · intro y hy
        rcases List.mem_cons.mp hy with rfl | hy'
        · exact hz
        · exact le_trans (h.1 y hy') hz
      · rw [List.pairwise_cons]
        exact h
    · rw [insertDescBy, if_neg hz, List.pairwise_cons]
      refine ⟨?_, ih h.2⟩
      intro y hy
      rcases (mem_insertDescBy key x zs y).mp hy with rfl | hy'
      · exact le_of_lt (Nat.lt_of_not_le hz)
      · exact h.1 y hy'

theorem pairwise_sortDescBy (key : BB → Nat) (l : List BB) :
    (sortDescBy key l).Pairwise (fun a b => key b ≤ key a) := by
  induction l with
  | nil => simp [sortDescBy]
  | cons z zs ih => exact pairwise_insertDescBy key z (sortDescBy key zs) ih

theorem getLast?_mem_list {α : Type} (l : List α) (x : α)
    (h : l.getLast? = some x) : x ∈ l := by
  induction l with
  | nil => cases h
  | cons z zs ih =>
    cases zs with
    | nil =>
      simp [List.getLast?] at h
      simp [h]
    | cons w ws =>
      rw [List.getLast?_cons_cons] at h
      exact List.mem_cons_of_mem _ (ih h)

theorem pairwise_getLast?_min {R : BB → BB → Prop} (l : List BB) (x : BB)
    (hp : l.Pairwise R) (h : l.getLast? = some x) :
    ∀ y ∈ l, y = x ∨ R y x := by
  induction l with
  | nil => cases h
  | cons z zs ih =>
    rw [List.pairwise_cons] at hp
    cases zs with
    | nil =>
      simp [List.getLast?] at h
      intro y hy
      simp at hy
      subst hy
      exact Or.inl h
    | cons w ws =>
      rw [List.getLast?_cons_cons] at h
      intro y hy
      rcases List.mem_cons.mp hy with rfl | hy'
      · exact Or.inr (hp.1 x (getLast?_mem_list _ x h))
      · exact ih hp.2 h y hy'

/- ------------------------------------------------------------------ -/
/- C7: reverse traversals only enqueue strictly smaller predecessors   -/
/- ------------------------------------------------------------------ -/

/-- C7: in every reverse traversal (depth-first or breadth-first, from any
starting queue), every predecessor enqueued while visiting a block has a
start address strictly below the visited block's start address. -/
theorem c7_reverse_enqueue_strictly_less (g : FlowChart) (dfs : Bool)
    (fuel : Nat) (q0 : List BB) (ev : BB × List BB)
    (hev : ev ∈ revGo g dfs fuel q0) (p : BB) (hp : p ∈ ev.2) :
    p.startEA < ev.1.startEA := by
  induction fuel generalizing q0 with
  | zero => cases hev
  | succ n ih =>
    cases q0 with
    | nil => cases hev
    | cons cur rest =>
      rw [revGo] at hev
      rcases List.mem_cons.mp hev with rfl | hev'
      · have := (List.mem_filter.mp hp).2
        simpa using this
      · exact ih _ hev'

/-- Witness for C7: visiting D of the diamond in a reverse DFS enqueues C,
whose start 8 is strictly below D's start 12. -/
theorem c7_reverse_enqueue_strictly_less_witness :
    (blkD, [blkC, blkB]) ∈ revGo diamond true 5 [blkD] ∧
    blkC ∈ [blkC, blkB] ∧ blkC.startEA < blkD.startEA :=
  ⟨by decide, by decide,
   c7_reverse_enqueue_strictly_less diamond true 5 [blkD] (blkD, [blkC, blkB])
     (by decide) blkC (by decide)⟩

/- ------------------------------------------------------------------ -/
/- C6: default start of the reverse traversals                         -/
/- ------------------------------------------------------------------ -/

theorem getLast?_some_of_ne_nil {α : Type} (l : List α) (h : l ≠ []) :
    ∃ m, l.getLast? = some m := by
  induction l with
  | nil => exact absurd rfl h
  | cons a as ih =>
    cases as with
    | nil => exact ⟨a, rfl⟩
    | cons b bs =>
      obtain ⟨m, hm⟩ := ih (by simp)
      rw [List.getLast?_cons_cons]
      exact ⟨m, hm⟩

/-- C6 counterexample: the claim says a reverse traversal without a start
address begins at the block with the GREATEST start address.  On the
straight-line graph A(0..4) → B(4..8), both reverse traversals begin (and
end) at A, start address 0, although block B with the greater start address 4
is in the graph: `sorted(..., reverse=True)[-1:]` selects the LAST element of
the descending sort, i.e. the least start address. -/
theorem c6_counterexample :
    dfsBlocksRev lineG 5 none = .ok [blkSA] ∧
    bfsBlocksRev lineG 5 none = .ok [blkSA] ∧
    blkSB ∈ lineG.blocks ∧ blkSA.startEA < blkSB.startEA := by
  refine ⟨by rfl, by rfl, by decide, by decide⟩

/-- C6 (amended): reverse depth-first and breadth-first traversal invoked
without a start address begins at the block with the LEAST start address in
the graph. -/
theorem c6_reverse_default_start_least (g : FlowChart) (fuel : Nat)
    (hne : g.blocks ≠ []) (hf : 1 ≤ fuel) :
    ∃ m outd outb, dfsBlocksRev g fuel none = .ok outd ∧
      bfsBlocksRev g fuel none = .ok outb ∧
      outd.head? = some m ∧ outb.head? = some m ∧
      m ∈ g.blocks ∧ ∀ b ∈ g.blocks, m.startEA ≤ b.startEA := by
  obtain ⟨b0, hb0⟩ := List.exists_mem_of_ne_nil g.blocks hne
  have hsne : sortDescBy (·.startEA) g.blocks ≠ [] := by
    intro hcon
    have := (mem_sortDescBy (·.startEA) g.blocks b0).mpr hb0
    rw [hcon] at this
    cases this
  obtain ⟨m, hm⟩ := getLast?_some_of_ne_nil _ hsne
  have hmmem : m ∈ g.blocks :=
    (mem_sortDescBy (·.startEA) g.blocks m).mp (getLast?_mem_list _ m hm)
  have hmin : ∀ b ∈ g.blocks, m.startEA ≤ b.startEA := by
    intro b hb
    have hbs := (mem_sortDescBy (·.startEA) g.blocks b).mpr hb
    rcases pairwise_getLast?_min _ m (pairwise_sortDescBy (·.startEA) g.blocks)
      hm b hbs with rfl | hle
    · exact Nat.le_refl _
    · exact hle
  cases fuel with
  | zero => omega
  | succ n =>
    refine ⟨m, _, _, rfl, rfl, ?_, ?_, hmmem, hmin⟩ <;>
      simp [dfsBlocksRev, bfsBlocksRev, revInit, hm, Option.toList, revGo]

/-- Witness for the amended C6 on the straight-line two-block graph. -/
theorem c6_reverse_default_start_least_witness :
    lineG.blocks ≠ [] ∧ 1 ≤ 5 ∧
    (∃ m outd outb, dfsBlocksRev lineG 5 none = .ok outd ∧
      bfsBlocksRev lineG 5 none = .ok outb ∧
      outd.head? = some m ∧ outb.head? = some m ∧
      m ∈ lineG.blocks ∧ ∀ b ∈ lineG.blocks, m.startEA ≤ b.startEA) :=
  ⟨by decide, by decide,
   c6_reverse_default_start_least lineG 5 (by decide) (by decide)⟩

/- ------------------------------------------------------------------ -/
/- C8: traversal from an address not in any (reachable) block          -/
/- ------------------------------------------------------------------ -/

theorem reachable_mem (g : FlowChart) (b : BB) (h : ReachableF g b) :
    b ∈ g.blocks := by
  induction h with
  | entry b hb =>
    cases hl : g.blocks with
    | nil => rw [hl] at hb; cases hb
    | cons x rest =>
      rw [hl] at hb
      simp at hb
      subst hb
      simp [hl]
  | step b c hb hc ih =>
    unfold succsOf at hc
    rcases List.mem_filterMap.mp hc with ⟨s, _, hf⟩
    exact findBlockByStart_mem g s c hf

theorem fwdGo_unfound_empty (g : FlowChart) (dfs : Bool) (s : Nat)
    (hre : ∀ b, ReachableF g b → bbContains b s = false) :
    ∀ fuel queue visited, (∀ b ∈ queue, ReachableF g b) →
      fwdGo g dfs (some s) fuel queue visited false = [] := by
  intro fuel
  induction fuel with
  | zero => intro queue visited hq; rfl
  | succ n ih =>
    intro queue visited hq
    cases queue with
    | nil => rfl
    | cons cur rest =>
      rw [fwdGo]
      by_cases hv : cur.startEA ∈ visited
      · rw [if_pos hv]
        exact ih rest visited (fun b hb => hq b (List.mem_cons_of_mem _ hb))
      · rw [if_neg hv]
        have hcur : ReachableF g cur := hq cur (List.mem_cons_self _ _)
        have hfound : (false || bbContains cur s) = false := by
          simp [hre cur hcur]
        simp only [hfound]
        have hq' : ∀ b ∈ (if dfs then
            sortAscBy (·.startEA) (succsOf g cur) ++ rest
          else rest ++ sortAscBy (·.startEA) (succsOf g cur)), ReachableF g b := by
          intro b hb
          have hsplit : b ∈ sortAscBy (·.startEA) (succsOf g cur) ∨ b ∈ rest := by
            cases dfs with
            | true =>
              simp only [if_pos] at hb
              rcases List.mem_append.mp hb with h1 | h1
              · exact Or.inl h1
              · exact Or.inr h1
            | false =>
              simp only [if_neg] at hb
              rcases List.mem_append.mp hb with h1 | h1
              · exact Or.inr h1
              · exact Or.inl h1
          rcases hsplit with h1 | h1
          · have : b ∈ succsOf g cur := (mem_sortAscBy _ _ b).mp h1
            exact ReachableF.step cur b hcur this
          · exact hq b (List.mem_cons_of_mem _ h1)
        rw [ih _ _ hq']
        simp
  
theorem entryList_reachable (g : FlowChart) (b : BB) (h : b ∈ entryList g) :
    ReachableF g b := by
  unfold entryList at h
  cases hl : g.blocks with
  | nil => rw [hl] at h; cases h
  | cons x rest =>
    rw [hl] at h
    simp [List.take] at h
    subst h
    exact ReachableF.entry b (by rw [hl]; rfl)

/-- C8 counterexample: the claim says EVERY traversal mode yields an empty
sequence (and no error) when the start address is absent.  Address 100 lies
in no block of the straight-line graph, yet each reverse traversal mode
raises `AttributeError` (the `None` from `find_block` is dereferenced) rather
than yielding an empty sequence. -/
theorem c8_counterexample :
    (∀ b ∈ lineG.blocks, bbContains b 100 = false) ∧
    dfsBlocksRev lineG 5 (some 100) = .error .attributeError ∧
    bfsBlocksRev lineG 5 (some 100) = .error .attributeError ∧
    dfsHeadsRev hds16 lineG 5 (some 100) = .error .attributeError ∧
    bfsHeadsRev hds16 lineG 5 (some 100) = .error .attributeError :=
  ⟨by decide, by rfl, by rfl, by rfl, by rfl⟩

/-- C8 (amended): when the start address is contained in no block reachable
from the entry, the four FORWARD traversal modes yield an empty sequence and
no error; the four REVERSE modes instead raise `AttributeError` whenever the
(nonzero) start address is contained in no block of the graph at all. -/
theorem c8_traversal_unfound_address (g : FlowChart) (H : List Nat)
    (fuel : Nat) (s : Nat) :
    ((∀ b, ReachableF g b → bbContains b s = false) →
      dfsBlocksFwd g fuel (some s) = [] ∧ bfsBlocksFwd g fuel (some s) = [] ∧
      dfsHeadsFwd H g fuel (some s) = [] ∧ bfsHeadsFwd H g fuel (some s) = []) ∧
    ((∀ b ∈ g.blocks, bbContains b s = false) → s ≠ 0 →
      dfsBlocksRev g fuel (some s) = .error .attributeError ∧
      bfsBlocksRev g fuel (some s) = .error .attributeError ∧
      dfsHeadsRev H g fuel (some s) = .error .attributeError ∧
      bfsHeadsRev H g fuel (some s) = .error .attributeError) := by
  constructor
  · intro hre
    have hd : dfsBlocksFwd g fuel (some s) = [] :=
      fwdGo_unfound_empty g true s hre fuel (entryList g) []
        (fun b hb => entryList_reachable g b hb)
    have hb : bfsBlocksFwd g fuel (some s) = [] :=
      fwdGo_unfound_empty g false s hre fuel (entryList g) []
        (fun b hb => entryList_reachable g b hb)
    refine ⟨hd, hb, ?_, ?_⟩
    · unfold dfsHeadsFwd
      rw [hd]
      rfl
    · unfold bfsHeadsFwd
      rw [hb]
      rfl
  · intro hnb hs
    have hfb : find_block g s = none := by
      apply List.find?_eq_none.mpr
      intro b hb
      simp [hnb b hb]
    have hinit : revInit g (some s) = .error .attributeError := by
      simp [revInit, hs, hfb]
    refine ⟨?_, ?_, ?_, ?_⟩ <;>
      simp [dfsBlocksRev, bfsBlocksRev, dfsHeadsRev, bfsHeadsRev, hinit,
        Except.map]

/-- Witness for the amended C8 at the absent address 100 of the straight-line
graph. -/
theorem c8_traversal_unfound_address_witness :
    (dfsBlocksFwd lineG 5 (some 100) = [] ∧
      bfsBlocksFwd lineG 5 (some 100) = [] ∧
      dfsHeadsFwd hds16 lineG 5 (some 100) = [] ∧
      bfsHeadsFwd hds16 lineG 5 (some 100) = []) ∧
    (dfsBlocksRev lineG 5 (some 100) = .error .attributeError ∧
      bfsBlocksRev lineG 5 (some 100) = .error .attributeError ∧
      dfsHeadsRev hds16 lineG 5 (some 100) = .error .attributeError ∧
      bfsHeadsRev hds16 lineG 5 (some 100) = .error .attributeError) :=
  ⟨(c8_traversal_unfound_address lineG hds16 5 100).1
     (fun b hb =>
       (by decide : ∀ b ∈ lineG.blocks, bbContains b 100 = false) b
         (reachable_mem lineG b hb)),
   (c8_traversal_unfound_address lineG hds16 5 100).2 (by decide) (by decide)⟩

/- ------------------------------------------------------------------ -/
/- cpu_context lemmas (C3, C9)                                         -/
/- ------------------------------------------------------------------ -/

theorem endOf_congr (H : List Nat) (p1 p2 : CPath) (q : Option Nat)
    (h : cpBB p1 = cpBB p2) : endOf H p1 q = endOf H p2 q := by
  cases q with
  | none => simp [endOf, h]
  | some ea => simp [endOf]

theorem cpu_context_none_ok (H : List Nat) (p : CPath) :
    ∃ c p' ex, cpu_context H p none = .ok (c, p', ex) := by
  induction p with
  | node bb cache =>
    rw [cpu_context, dif_neg (by simp)]
    simp only [endOf, cpBB]
    cases cache with
    | none => exact ⟨_, _, _, rfl⟩
    | some cc =>
      obtain ⟨ctx, cea⟩ := cc
      by_cases h1 : cea = bb.endEA
      · simp only [if_pos h1]
        exact ⟨_, _, _, rfl⟩
      · simp only [if_neg h1]
        by_cases h2 : cea > bb.endEA
        · simp only [if_pos h2]
          exact ⟨_, _, _, rfl⟩
        · simp only [if_neg h2]
          exact ⟨_, _, _, rfl⟩
  | cons bb cache prev ih =>
    obtain ⟨c, p', ex, hih⟩ := ih
    rw [cpu_context, dif_neg (by simp)]
    simp only [endOf, cpBB]
    cases cache with
    | none =>
      rw [hih]
      exact ⟨_, _, _, rfl⟩
    | some cc =>
      obtain ⟨ctx, cea⟩ := cc
      by_cases h1 : cea = bb.endEA
      · simp only [if_pos h1]
        exact ⟨_, _, _, rfl⟩
      · simp only [if_neg h1]
        by_cases h2 : cea > bb.endEA
        · simp only [if_pos h2]
          rw [hih]
          exact ⟨_, _, _, rfl⟩
        · simp only [if_neg h2]
          exact ⟨_, _, _, rfl⟩

/-- C9: an explicitly supplied address outside the PathBlock's own block
range makes `cpu_context` raise its `KeyError` (the spec's
`AddressOutOfRangeError`) to the caller, and an address inside the range
never produces that error (the recursive parent computations pass `ea=None`
and cannot raise it either). -/
theorem c9_cpu_context_range_check (H : List Nat) (p : CPath) (ea : Nat) :
    (bbContains (cpBB p) ea = false →
      cpu_context H p (some ea) = .error .addressOutOfRange) ∧
    (bbContains (cpBB p) ea = true →
      cpu_context H p (some ea) ≠ .error .addressOutOfRange) := by
  constructor
  · intro hout
    cases p with
    | node bb cache =>
      rw [cpu_context, dif_pos (by simp [cpBB] at hout; simp [hout])]
    | cons bb cache prev =>
      rw [cpu_context, dif_pos (by simp [cpBB] at hout; simp [hout])]
  · intro hin
    cases p with
    | node bb cache =>
      rw [cpu_context, dif_neg (by simp [cpBB] at hin; simp [hin])]
      simp only [endOf]
      cases hnh : nextHead H ea with
      | none => simp
      | some en =>
        cases cache with
        | none => simp
        | some cc =>
          obtain ⟨ctx, cea⟩ := cc
          by_cases h1 : cea = en
          · simp [h1]
          · by_cases h2 : cea > en
            · simp [h1, h2]
            · simp [h1, h2]
    | cons bb cache prev =>
      rw [cpu_context, dif_neg (by simp [cpBB] at hin; simp [hin])]
      simp only [endOf]
      cases hnh : nextHead H ea with
      | none => simp
      | some en =>
        obtain ⟨c, p', ex, hih⟩ := cpu_context_none_ok H prev
        cases cache with
        | none =>
          rw [hih]
          simp
        | some cc =>
          obtain ⟨ctx, cea⟩ := cc
          by_cases h1 : cea = en
          · simp [h1]
          · by_cases h2 : cea > en
            · simp only [if_neg h1, if_pos h2]
              rw [hih]
              simp
            · simp [h1, h2]

/-- Witness for C9: on a two-block chain, address 99 is outside block B and
produces the range error; address 5 is inside and does not. -/
theorem c9_cpu_context_range_check_witness :
    (bbContains blkB 99 = false ∧
      cpu_context hds16 (.cons blkB none (.node blkA none)) (some 99) =
        .error .addressOutOfRange) ∧
    (bbContains blkB 5 = true ∧
      cpu_context hds16 (.cons blkB none (.node blkA none)) (some 5) ≠
        .error .addressOutOfRange) :=
  ⟨⟨by decide,
    (c9_cpu_context_range_check hds16 (.cons blkB none (.node blkA none)) 99).1
      (by decide)⟩,
   ⟨by decide,
    (c9_cpu_context_range_check hds16 (.cons blkB none (.node blkA none)) 5).2
      (by decide)⟩⟩

theorem allCold_node (bb : BB) (cache : Option (List Nat × Nat))
    (h : allCold (.node bb cache) = true) : cache = none := by
  cases cache with
  | none => rfl
  | some c => simp [allCold] at h

theorem allCold_cons (bb : BB) (cache : Option (List Nat × Nat)) (prev : CPath)
    (h : allCold (.cons bb cache prev) = true) :
    cache = none ∧ allCold prev = true := by
  cases cache with
  | none => simpa [allCold] using h
  | some c => simp [allCold] at h

theorem cpu_context_cold_default (H : List Nat) (p : CPath)
    (hc : allCold p = true) :
    cpu_context H p none = .ok (coldList H p, coldWarm H p, coldList H p) := by
  induction p with
  | node bb cache =>
    obtain rfl := allCold_node bb cache hc
    rw [cpu_context, dif_neg (by simp)]
    simp [endOf, cpBB, coldList, coldWarm, pathBlocksRoot]
  | cons bb cache prev ih =>
    obtain ⟨rfl, hprev⟩ := allCold_cons bb cache prev hc
    rw [cpu_context, dif_neg (by simp)]
    simp only [endOf, cpBB]
    rw [ih hprev]
    simp [coldList, coldWarm, pathBlocksRoot]

theorem cpu_context_ok_shape (H : List Nat) (p : CPath) (q : Option Nat)
    (c : List Nat) (p' : CPath) (ex : List Nat)
    (h : cpu_context H p q = .ok (c, p', ex)) :
    cpBB p' = cpBB p ∧
    ¬(q.isSome = true ∧ ¬(bbContains (cpBB p) (q.getD 0) = true)) ∧
    ∃ en, endOf H p q = some en ∧ cpCache p' = some (c, en) := by
  cases p with
  | node bb cache =>
    rw [cpu_context] at h
    by_cases hg : (q.isSome = true ∧ ¬(bbContains bb (q.getD 0) = true))
    · rw [dif_pos hg] at h
      cases h
    · rw [dif_neg hg] at h
      cases hen : endOf H (.node bb cache) q with
      | none =>
        rw [hen] at h
        cases h
      | some en =>
        rw [hen] at h
        cases cache with
        | none =>
          cases h
          exact ⟨rfl, hg, en, rfl, rfl⟩
        | some cc =>
          obtain ⟨ctx, cea⟩ := cc
          by_cases h1 : cea = en
          · simp only [if_pos h1] at h
            cases h
            exact ⟨rfl, hg, en, rfl, by simp [cpCache, h1]⟩
          · simp only [if_neg h1] at h
            by_cases h2 : cea > en
            · simp only [if_pos h2] at h
              cases h
              exact ⟨rfl, hg, en, rfl, rfl⟩
            · simp only [if_neg h2] at h
              cases h
              exact ⟨rfl, hg, en, rfl, rfl⟩
  | cons bb cache prev =>
    rw [cpu_context] at h
    by_cases hg : (q.isSome = true ∧ ¬(bbContains bb (q.getD 0) = true))
    · rw [dif_pos hg] at h
      cases h
    · rw [dif_neg hg] at h
      cases hen : endOf H (.cons bb cache prev) q with
      | none =>
        rw [hen] at h
        cases h
      | some en =>
        rw [hen] at h
        cases cache with
        | none =>
          cases hrec : cpu_context H prev none with
          | error e =>
            rw [hrec] at h
            cases h
          | ok r =>
            obtain ⟨cp, prev', exp⟩ := r
            rw [hrec] at h
            cases h
            exact ⟨rfl, hg, en, rfl, rfl⟩
        | some cc =>
          obtain ⟨ctx, cea⟩ := cc
          by_cases h1 : cea = en
          · simp only [if_pos h1] at h
            cases h
            exact ⟨rfl, hg, en, rfl, by simp [cpCache, h1]⟩
          · simp only [if_neg h1] at h
            by_cases h2 : cea > en
            · simp only [if_pos h2] at h
              cases hrec : cpu_context H prev none with
              | error e =>
                rw [hrec] at h
                cases h
              | ok r =>
                obtain ⟨cp, prev', exp⟩ := r
                rw [hrec] at h
                cases h
                exact ⟨rfl, hg, en, rfl, rfl⟩
            · simp only [if_neg h2] at h
              cases h
              exact ⟨rfl, hg, en, rfl, rfl⟩

/-- C3: (a) on a fully cold chain, a query for an in-range address replays
the processor step exactly for the heads of every ancestor block plus the
heads of the current block up to the computed end `en = NextHead(ea)` — the
instructions from the path's start up to the requested address, with the
parent context as baseline; (b) a repeated identical query replays zero
instructions, returns a copy of the cached snapshot, and leaves the chain
unchanged; (c) when the cached fill-point lies past the computed end, the
node reinitializes (parent baseline or fresh context) exactly as if its cache
were absent — it never rewinds the cached state. -/
theorem c3_cpu_context_incremental (H : List Nat) :
    (∀ p ea en, allCold p = true → bbContains (cpBB p) ea = true →
      nextHead H ea = some en →
      cpu_context H p (some ea) =
        .ok (parentColdList H p ++ pyHeads H (cpBB p).startEA en,
          coldFillAt H p en,
          parentColdList H p ++ pyHeads H (cpBB p).startEA en)) ∧
    (∀ p q c p' ex, cpu_context H p q = .ok (c, p', ex) →
      cpu_context H p' q = .ok (c, p', [])) ∧
    (∀ p ea ctx0 fp en, cpCache p = some (ctx0, fp) →
      nextHead H ea = some en → en < fp →
      cpu_context H p (some ea) = cpu_context H (clearTop p) (some ea)) := by
  refine ⟨?_, ?_, ?_⟩
  · intro p ea en hcold hin hnh
    cases p with
    | node bb cache =>
      obtain rfl := allCold_node bb cache hcold
      simp only [cpBB] at hin
      rw [cpu_context, dif_neg (by simp [hin])]
      simp only [endOf, hnh]
      simp [parentColdList, coldFillAt, cpBB]
    | cons bb cache prev =>
      obtain ⟨rfl, hprev⟩ := allCold_cons bb cache prev hcold
      simp only [cpBB] at hin
      rw [cpu_context, dif_neg (by simp [hin])]
      simp only [endOf, hnh]
      rw [cpu_context_cold_default H prev hprev]
      simp [parentColdList, coldFillAt, cpBB]
  · intro p q c p' ex h
    obtain ⟨hbb, hg, en, hen, hcache⟩ := cpu_context_ok_shape H p q c p' ex h
    have hen' : endOf H p' q = some en := by
      rw [endOf_congr H p' p q hbb]
      exact hen
    cases p' with
    | node bb' cc =>
      have hbb' : bb' = cpBB p := hbb
      rw [cpu_context, dif_neg (by rw [hbb']; exact hg)]
      simp only [cpCache] at hcache
      subst hcache
      rw [show endOf H (CPath.node bb' (some (c, en))) q = some en from hen']
      simp
    | cons bb' cc prev' =>
      have hbb' : bb' = cpBB p := hbb
      rw [cpu_context, dif_neg (by rw [hbb']; exact hg)]
      simp only [cpCache] at hcache
      subst hcache
      rw [show endOf H (CPath.cons bb' (some (c, en)) prev') q = some en from hen']
      simp
  · intro p ea ctx0 fp en hcache hnh hlt
    cases p with
    | node bb cc =>
      simp only [cpCache] at hcache
      subst hcache
      by_cases hg : ((some ea).isSome = true ∧
          ¬(bbContains bb ((some ea).getD 0) = true))
      · rw [cpu_context, dif_pos hg]
        simp only [clearTop]
        rw [cpu_context, dif_pos hg]
      · rw [cpu_context, dif_neg hg]
        simp only [clearTop]
        rw [cpu_context, dif_neg hg]
        simp only [endOf, hnh]
        rw [if_neg (by omega), if_pos (by omega)]
    | cons bb cc prev =>
      simp only [cpCache] at hcache
      subst hcache
      by_cases hg : ((some ea).isSome = true ∧
          ¬(bbContains bb ((some ea).getD 0) = true))
      · rw [cpu_context, dif_pos hg]
        simp only [clearTop]
        rw [cpu_context, dif_pos hg]
      · rw [cpu_context, dif_neg hg]
        simp only [clearTop]
        rw [cpu_context, dif_neg hg]
        simp only [endOf, hnh]
        rw [if_neg (by omega), if_pos (by omega)]

/-- Witness for C3 on the cold two-block chain A(0..4) → B(4..8) with one
instruction head per address: a query at address 5 replays heads 0..5, the
repeated query replays nothing, and a query at 4 after filling to 6
reinitializes from the parent. -/
theorem c3_cpu_context_incremental_witness :
    (allCold (.cons blkB none (.node blkA none)) = true ∧
      bbContains blkB 5 = true ∧ nextHead hds16 5 = some 6 ∧
      cpu_context hds16 (.cons blkB none (.node blkA none)) (some 5) =
        .ok ([0, 1, 2, 3, 4, 5],
          .cons blkB (some ([0, 1, 2, 3, 4, 5], 6))
            (.node blkA (some ([0, 1, 2, 3], 4))),
          [0, 1, 2, 3, 4, 5])) ∧
    cpu_context hds16
      (.cons blkB (some ([0, 1, 2, 3, 4, 5], 6))
        (.node blkA (some ([0, 1, 2, 3], 4)))) (some 5) =
      .ok ([0, 1, 2, 3, 4, 5],
        .cons blkB (some ([0, 1, 2, 3, 4, 5], 6))
          (.node blkA (some ([0, 1, 2, 3], 4))),
        []) ∧
    cpu_context hds16
      (.cons blkB (some ([0, 1, 2, 3, 4, 5], 6))
        (.node blkA (some ([0, 1, 2, 3], 4)))) (some 4) =
      cpu_context hds16
        (.cons blkB none (.node blkA (some ([0, 1, 2, 3], 4)))) (some 4) := by
  refine ⟨⟨by decide, by decide, by decide, ?_⟩, ?_, ?_⟩
  · exact (c3_cpu_context_incremental hds16).1
      (.cons blkB none (.node blkA none)) 5 6 (by decide) (by decide) (by decide)
  · exact (c3_cpu_context_incremental hds16).2.1
      (.cons blkB none (.node blkA none)) (some 5) [0, 1, 2, 3, 4, 5]
      (.cons blkB (some ([0, 1, 2, 3, 4, 5], 6))
        (.node blkA (some ([0, 1, 2, 3], 4)))) [0, 1, 2, 3, 4, 5] (by rfl)
  · exact (c3_cpu_context_incremental hds16).2.2
      (.cons blkB (some ([0, 1, 2, 3, 4, 5], 6))
        (.node blkA (some ([0, 1, 2, 3], 4)))) 4 [0, 1, 2, 3, 4, 5] 6 5
      (by decide) (by decide) (by decide)

/- ------------------------------------------------------------------ -/
/- C1: path enumeration                                                -/
/- ------------------------------------------------------------------ -/

theorem alookup_some_mem {α : Type} (m : List (Nat × α)) (s : Nat) (v : α)
    (h : alookup m s = some v) : (s, v) ∈ m := by
  induction m with
  | nil => cases h
  | cons e rest ih =>
    by_cases he : e.1 = s
    · rw [alookup, if_pos he] at h
      injection h with h
      subst h
      rw [← he]
      exact List.mem_cons_self _ _
    · rw [alookup, if_neg he] at h
      exact List.mem_cons_of_mem _ (ih h)

theorem lookupPC_nil (s : Nat) : lookupPC [] s = [] := rfl

theorem cacheOKC_nil (g : FlowChart) : CacheOKC g [] := by
  intro e he
  cases he

theorem flatMapCongr {α β : Type} (l : List α) (f h : α → List β)
    (he : ∀ x ∈ l, f x = h x) : l.flatMap f = l.flatMap h := by
  induction l with
  | nil => rfl
  | cons x xs ih =>
    simp only [List.flatMap_cons]
    rw [he x (List.mem_cons_self _ _),
      ih (fun y hy => he y (List.mem_cons_of_mem _ hy))]

theorem goodPB_top (g : FlowChart) (q : PathB) (b : BB)
    (h : goodPB g q b = true) : topBB q = b := by
  cases q with
  | node bb =>
    simp [goodPB] at h
    simp [topBB, h.1]
  | cons bb p =>
    simp [goodPB] at h
    simp [topBB, h.1]

theorem buildPathC_eq_canonical (g : FlowChart) (hwf : WF g) :
    ∀ fuel cache, CacheOKC g cache → ∀ cur visited, cur ∈ g.blocks →
      (∀ v ∈ visited, cur.startEA < v) → cur.startEA < fuel →
      buildPathC g cache fuel cur visited = canonical g cur := by
  intro fuel
  induction fuel using Nat.strong_induction_on with
  | _ fuel ih =>
    intro cache hc cur visited hcur hv hf
    cases fuel with
    | zero => omega
    | succ n =>
      cases hpc : lookupPC cache cur.startEA with
      | cons x xs =>
        cases halk : alookup cache cur.startEA with
        | none =>
          rw [lookupPC, halk] at hpc
          cases hpc
        | some l =>
          have hl : l = x :: xs := by
            rw [lookupPC, halk] at hpc
            exact hpc
          obtain ⟨b, hbmem, hbs, hbc⟩ :=
            hc (cur.startEA, l) (alookup_some_mem cache cur.startEA l halk)
          have hbcur : b = cur :=
            startEA_inj g hwf b cur hbmem hcur (by simpa using hbs.symm)
          simp only [buildPathC, hpc, List.isEmpty_cons, Bool.false_eq_true,
            if_false]
          have hlc : l = canonical g b := hbc
          rw [← hl, hlc, hbcur]
      | nil =>
        simp only [buildPathC, canonical, hpc, lookupPC_nil, List.isEmpty_nil,
          if_true]
        by_cases hp : (predsOf g cur).isEmpty = true
        · rw [if_pos hp, if_pos hp]
        · rw [if_neg hp, if_neg hp]
          apply flatMapCongr
          intro blk hblk
          have hblkmem : blk ∈ g.blocks := mem_predsOf g cur blk hblk
          by_cases hgt : blk.startEA > cur.startEA
          · simp [hgt]
          · by_cases hvm : blk.startEA ∈ visited
            · exact absurd (hv _ hvm) (by omega)
            · by_cases heq : blk.startEA = cur.startEA
              · simp [heq]
              · have hlt : blk.startEA < cur.startEA := by omega
                rw [if_neg (by simp [hgt, heq, hvm]), if_neg (by simp [hgt, heq])]
                have e1 : buildPathC g cache n blk (cur.startEA :: visited) =
                    canonical g blk := by
                  apply ih n (by omega) cache hc blk _ hblkmem _ (by omega)
                  intro v hvv
                  rcases List.mem_cons.mp hvv with rfl | h1
                  · exact hlt
                  · exact lt_trans hlt (hv _ h1)
                have e2 : buildPathC g [] cur.startEA blk [cur.startEA] =
                    canonical g blk := by
                  apply ih cur.startEA (by omega) [] (cacheOKC_nil g) blk _
                    hblkmem _ hlt
                  intro v hvv
                  rcases List.mem_cons.mp hvv with rfl | h1
                  · exact hlt
                  · cases h1
                rw [e1, e2]

theorem mem_buildPath_pure (g : FlowChart) (hwf : WF g) :
    ∀ fuel cur visited q, cur ∈ g.blocks → (∀ v ∈ visited, cur.startEA < v) →
      cur.startEA < fuel →
      (q ∈ buildPathC g [] fuel cur visited ↔ goodPB g q cur = true) := by
  intro fuel
  induction fuel with
  | zero => intro cur visited q hcur hv hf; omega
  | succ n ih =>
    intro cur visited q hcur hv hf
    simp only [buildPathC, lookupPC_nil, List.isEmpty_nil, if_true]
    by_cases hp : (predsOf g cur).isEmpty = true
    · rw [if_pos hp]
      have hpe : predsOf g cur = [] := List.isEmpty_iff.mp hp
      constructor
      · intro hq
        have : q = PathB.node cur := by simpa using hq
        subst this
        simp [goodPB, hpe]
      · intro hg
        cases q with
        | node bb =>
          simp only [goodPB, Bool.and_eq_true, beq_iff_eq] at hg
          simp [hg.1]
        | cons bb p =>
          simp only [goodPB, Bool.and_eq_true, beq_iff_eq,
            decide_eq_true_eq] at hg
          obtain ⟨⟨⟨hbbc, htopmem⟩, _⟩, _⟩ := hg
          subst hbbc
          rw [hpe] at htopmem
          cases htopmem
    · rw [if_neg hp]
      rw [List.mem_flatMap]
      constructor
      · rintro ⟨blk, hblk, hq⟩
        by_cases hguard : (decide (blk.startEA ∈ cur.startEA :: visited) ||
            decide (blk.startEA > cur.startEA)) = true
        · rw [if_pos hguard] at hq
          cases hq
        · rw [if_neg hguard] at hq
          rcases List.mem_map.mp hq with ⟨p, hpmem, rfl⟩
          simp only [Bool.or_eq_true, decide_eq_true_eq, not_or,
            List.mem_cons] at hguard
          obtain ⟨⟨hne, hnvis⟩, hle⟩ := hguard
          have hlt : blk.startEA < cur.startEA := by omega
          have hIH := (ih blk (cur.startEA :: visited) p
            (mem_predsOf g cur blk hblk)
            (by
              intro v hvv
              rcases List.mem_cons.mp hvv with rfl | h1
              · exact hlt
              · exact lt_trans hlt (hv _ h1))
            (by omega)).mp hpmem
          have htop : topBB p = blk := goodPB_top g p blk hIH
          simp [goodPB, htop, hblk, hlt, hIH]
      · intro hg
        cases q with
        | node bb =>
          simp only [goodPB, Bool.and_eq_true, beq_iff_eq] at hg
          obtain ⟨h1, h2⟩ := hg
          subst h1
          exact absurd h2 hp
        | cons bb p =>
          simp only [goodPB, Bool.and_eq_true, beq_iff_eq,
            decide_eq_true_eq] at hg
          obtain ⟨⟨⟨hbbc, htopmem⟩, htoplt⟩, hgood⟩ := hg
          subst hbbc
          refine ⟨topBB p, htopmem, ?_⟩
          rw [if_neg (by
            simp only [Bool.or_eq_true, decide_eq_true_eq, not_or,
              List.mem_cons]
            refine ⟨⟨by omega, ?_⟩, by omega⟩
            intro h1
            exact absurd (hv _ h1) (by omega))]
          refine List.mem_map.mpr ⟨p, ?_, rfl⟩
          exact (ih (topBB p) (bb.startEA :: visited) p
            (mem_predsOf g bb (topBB p) htopmem)
            (by
              intro v hvv
              rcases List.mem_cons.mp hvv with rfl | h1
              · exact htoplt
              · exact lt_trans htoplt (hv _ h1))
            (by omega)).mpr hgood

theorem mem_canonical (g : FlowChart) (hwf : WF g) (b : BB) (hb : b ∈ g.blocks)
    (q : PathB) : q ∈ canonical g b ↔ goodPB g q b = true := by
  unfold canonical
  exact mem_buildPath_pure g hwf (b.startEA + 1) b [] q hb
    (fun v hv => by cases hv) (by omega)

theorem pairwise_start_filterMap (g : FlowChart) (l : List Nat) (hn : l.Nodup) :
    (l.filterMap (findBlockByStart g)).Pairwise
      (fun x y => x.startEA ≠ y.startEA) := by
  induction l with
  | nil => simp
  | cons s rest ih =>
    rw [List.nodup_cons] at hn
    rw [List.filterMap_cons]
    cases hfind : findBlockByStart g s with
    | none => exact ih hn.2
    | some b =>
      rw [List.pairwise_cons]
      refine ⟨?_, ih hn.2⟩
      intro y hy
      rcases List.mem_filterMap.mp hy with ⟨s', hs', hf'⟩
      rw [findBlockByStart_start g s b hfind, findBlockByStart_start g s' y hf']
      intro hcon
      subst hcon
      exact hn.1 hs'

theorem pairwise_start_predsOf (g : FlowChart) (b : BB) (hn : b.preds.Nodup) :
    (predsOf g b).Pairwise (fun x y => x.startEA ≠ y.startEA) :=
  pairwise_start_filterMap g b.preds hn

theorem nodup_buildPath_pure (g : FlowChart) (hwf : WF g) :
    ∀ fuel cur visited, cur ∈ g.blocks → (∀ v ∈ visited, cur.startEA < v) →
      cur.startEA < fuel → (buildPathC g [] fuel cur visited).Nodup := by
  intro fuel
  induction fuel with
  | zero => intro cur visited hcur hv hf; omega
  | succ n ih =>
    intro cur visited hcur hv hf
    simp only [buildPathC, lookupPC_nil, List.isEmpty_nil, if_true]
    by_cases hp : (predsOf g cur).isEmpty = true
    · rw [if_pos hp]
      simp
    · rw [if_neg hp]
      rw [List.nodup_flatMap]
      constructor
      · intro blk hblk
        by_cases hguard : (decide (blk.startEA ∈ cur.startEA :: visited) ||
            decide (blk.startEA > cur.startEA)) = true
        · rw [if_pos hguard]
          simp
        · rw [if_neg hguard]
          simp only [Bool.or_eq_true, decide_eq_true_eq, not_or,
            List.mem_cons] at hguard
          obtain ⟨⟨hne, hnvis⟩, hle⟩ := hguard
          have hlt : blk.startEA < cur.startEA := by omega
          have hinj : Function.Injective (PathB.cons cur) := by
            intro a b hab
            injection hab
          exact List.Nodup.map hinj (ih blk (cur.startEA :: visited)
            (mem_predsOf g cur blk hblk)
            (by
              intro v hvv
              rcases List.mem_cons.mp hvv with rfl | h1
              · exact hlt
              · exact lt_trans hlt (hv _ h1))
            (by omega))
      · apply List.Pairwise.imp_of_mem ?_
          (pairwise_start_predsOf g cur (hwf.2 cur hcur))
        intro a b ha hb hne
        intro q hqa hqb
        beta_reduce at hqa hqb
        by_cases hga : (decide (a.startEA ∈ cur.startEA :: visited) ||
            decide (a.startEA > cur.startEA)) = true
        · rw [if_pos hga] at hqa
          cases hqa
        · by_cases hgb : (decide (b.startEA ∈ cur.startEA :: visited) ||
              decide (b.startEA > cur.startEA)) = true
          · rw [if_pos hgb] at hqb
            cases hqb
          · rw [if_neg hga] at hqa
            rw [if_neg hgb] at hqb
            rcases List.mem_map.mp hqa with ⟨p, hpmem, rfl⟩
            rcases List.mem_map.mp hqb with ⟨p', hpmem', heq⟩
            have hpp : p = p' := by
              have := heq
              injection this with h1 h2
              exact h2.symm
            subst hpp
            simp only [Bool.or_eq_true, decide_eq_true_eq, not_or,
              List.mem_cons] at hga hgb
            obtain ⟨⟨hnea, hnvisa⟩, hlea⟩ := hga
            obtain ⟨⟨hneb, hnvisb⟩, hleb⟩ := hgb
            have hlta : a.startEA < cur.startEA := by omega
            have hltb : b.startEA < cur.startEA := by omega
            have hga' := (mem_buildPath_pure g hwf n a (cur.startEA :: visited)
              p (mem_predsOf g cur a ha)
              (by
                intro v hvv
                rcases List.mem_cons.mp hvv with rfl | h1
                · exact hlta
                · exact lt_trans hlta (hv _ h1))
              (by omega)).mp hpmem
            have hgb' := (mem_buildPath_pure g hwf n b (cur.startEA :: visited)
              p (mem_predsOf g cur b hb)
              (by
                intro v hvv
                rcases List.mem_cons.mp hvv with rfl | h1
                · exact hltb
                · exact lt_trans hltb (hv _ h1))
              (by omega)).mp hpmem'
            have : a = b := by
              rw [← goodPB_top g p a hga', ← goodPB_top g p b hgb']
            exact hne (by rw [this])

theorem nodup_canonical (g : FlowChart) (hwf : WF g) (b : BB)
    (hb : b ∈ g.blocks) : (canonical g b).Nodup :=
  nodup_buildPath_pure g hwf (b.startEA + 1) b [] hb
    (fun v hv => by cases hv) (by omega)

theorem stInv_cacheOKC (g : FlowChart) (st : FCState) (hinv : StInv g st) :
    CacheOKC g st.pathCache := by
  intro e he
  obtain ⟨b, hb, h1, h2, _⟩ := hinv.1 e he
  exact ⟨b, hb, h1, h2⟩

/-- C1 (amended): starting from any cache state reachable by fully consumed
`get_paths` calls (the invariant `StInv`, satisfied by the fresh graph and
preserved by every call), fully consuming `get_paths(ea)` yields exactly the
back-edge-free predecessor chains from a PREDECESSOR-LESS block to the block
containing `ea` — each such path exactly once — and re-establishes the
invariant, so later calls (including calls for intermediate blocks of the
same session) again yield exactly their own path sets. -/
theorem c1_get_paths_enumeration (g : FlowChart) (st : FCState) (ea : Nat)
    (out : List PathB) (st' : FCState) (fl : Bool) (blk : BB)
    (hwf : WF g) (hinv : StInv g st) (hfb : find_block g ea = some blk)
    (hrun : get_paths_all g st ea = .ok (out, st', fl)) :
    (∀ q, q ∈ out ↔ goodPB g q blk = true) ∧ out.Nodup ∧ StInv g st' := by
  have hblk : blk ∈ g.blocks := find_block_mem g ea blk hfb
  unfold get_paths_all at hrun
  rw [hfb] at hrun
  simp only at hrun
  have hmain : out = canonical g blk ∧
      st' = ⟨aset st.pathCache blk.startEA out,
        aset st.genCache blk.startEA []⟩ := by
    cases hgen : alookup st.genCache blk.startEA with
    | some rem =>
      rw [hgen] at hrun
      simp only [Except.ok.injEq, Prod.mk.injEq] at hrun
      obtain ⟨hout, hst, hfl⟩ := hrun
      obtain ⟨hrem, b, hb, h1, h2⟩ :=
        hinv.2 (blk.startEA, rem) (alookup_some_mem _ _ _ hgen)
      have hbb : b = blk :=
        startEA_inj g hwf b blk hb hblk (by simpa using h1.symm)
      have hcached : lookupPC st.pathCache blk.startEA = canonical g blk := by
        simp only [lookupPC]
        have h2' : alookup st.pathCache blk.startEA = some (canonical g blk) := by
          have h2'' := h2
          simp only at h2''
          rw [h2'', hbb]
        rw [h2']
        rfl
      have hrem' : rem = [] := hrem
      constructor
      · rw [← hout, hcached, hrem', List.append_nil]
      · rw [← hst, hout]
    | none =>
      rw [hgen] at hrun
      simp only [Except.ok.injEq, Prod.mk.injEq] at hrun
      obtain ⟨hout, hst, hfl⟩ := hrun
      have hcached : lookupPC st.pathCache blk.startEA = [] := by
        cases halk : alookup st.pathCache blk.startEA with
        | none => simp [lookupPC, halk]
        | some l =>
          obtain ⟨b, hb, h1, h2, h3⟩ :=
            hinv.1 (blk.startEA, l) (alookup_some_mem _ _ _ halk)
          rw [hgen] at h3
          cases h3
      have hbuild : buildPathC g st.pathCache (blk.startEA + 1) blk [] =
          canonical g blk :=
        buildPathC_eq_canonical g hwf (blk.startEA + 1) st.pathCache
          (stInv_cacheOKC g st hinv) blk [] hblk (fun v hv => by cases hv)
          (by omega)
      constructor
      · rw [← hout, hcached, hbuild, List.nil_append]
      · rw [← hst, hout]
  obtain ⟨hoc, hst⟩ := hmain
  refine ⟨?_, ?_, ?_⟩
  · intro q
    rw [hoc]
    exact mem_canonical g hwf blk hblk q
  · rw [hoc]
    exact nodup_canonical g hwf blk hblk
  · rw [hst]
    constructor
    · intro e he
      rcases mem_aset _ _ _ e he with rfl | hold
      · refine ⟨blk, hblk, rfl, by rw [hoc], ?_⟩
        simp only
        rw [alookup_aset_self]
      · obtain ⟨b, hb, h1, h2, h3⟩ := hinv.1 e hold
        refine ⟨b, hb, h1, h2, ?_⟩
        simp only
        by_cases hcase : e.1 = blk.startEA
        · rw [hcase, alookup_aset_self]
        · rw [alookup_aset_ne _ _ _ _ hcase]
          exact h3
    · intro e he
      rcases mem_aset _ _ _ e he with rfl | hold
      · refine ⟨rfl, blk, hblk, rfl, ?_⟩
        simp only
        rw [alookup_aset_self, hoc]
      · obtain ⟨h0, b, hb, h1, h2⟩ := hinv.2 e hold
        refine ⟨h0, b, hb, h1, ?_⟩
        simp only
        by_cases hcase : e.1 = blk.startEA
        · rw [hcase, alookup_aset_self, hoc]
          have hbb : b = blk :=
            startEA_inj g hwf b blk hb hblk (by rw [← h1, hcase])
          rw [hbb]
        · rw [alookup_aset_ne _ _ _ _ hcase]
          exact h2

/-- C1 counterexample: in the two-block function A(entry,0..4) → B(4..8) with
the back edge B → A, the chain [A, B] is a loop-free walk from the function
entry to B in the graph with back-edge predecessors (start ≥ current)
excluded (`claimEntryPath`), yet fully consuming `get_paths` for an address
in B yields NO paths at all: `_build_path` only terminates at blocks with no
predecessors, and the entry block A has the back-edge predecessor B, so the
claimed path set is not produced. -/
theorem c1_counterexample :
    get_paths_all loopG freshState 5 =
      .ok ([], ⟨[(4, [])], [(4, [])]⟩, true) ∧
    claimEntryPath loopG (.cons blkLB (.node blkLA)) blkLB = true ∧
    find_block loopG 5 = some blkLB :=
  ⟨by rfl, by decide, by rfl⟩

/-- Witness for the amended C1: the diamond session that first consumes
`get_paths` for B and then for D still yields exactly D's two paths
[A,B,D] and [A,C,D], each once, and preserves the cache invariant. -/
theorem c1_get_paths_enumeration_witness :
    (∀ q, q ∈ [pathABD, pathACD] ↔ goodPB diamond q blkD = true) ∧
    ([pathABD, pathACD] : List PathB).Nodup ∧
    StInv diamond ⟨[(4, [pathAB]), (12, [pathABD, pathACD])],
      [(4, []), (12, [])]⟩ :=
  c1_get_paths_enumeration diamond stB 13 [pathABD, pathACD]
    ⟨[(4, [pathAB]), (12, [pathABD, pathACD])], [(4, []), (12, [])]⟩ true blkD
    (by decide) (by decide) (by rfl) (by rfl)
